import Mathlib

/-!
Verification of fc2-live-dl (HoloArchivists/fc2-live-dl) against its
natural-language specification.

Shallow embedding of the parts of the source the claims touch:
 * `src/fc2_live_dl/util.py`    — `sanitize_filename`, `AsyncMap`
 * `src/fc2_live_dl/fc2.py`     — `FC2WebSocket.get_hls_information`
 * `src/fc2_live_dl/hls.py`     — `HLSDownloader` (poller, workers, ordered reader)
 * `src/fc2_live_dl/FC2LiveDL.py` — mode formatting, playlist merge/sort/selection

Python strings are modelled as `String` or `List Char`, bytes as `List Nat`,
dicts as association lists, exceptions as `Except`, and the concurrent parts
(the downloader pipeline and `AsyncMap`) as explicit step relations on state.
-/

deriving instance DecidableEq for Except

namespace FC2

/-! ### `FC2LiveDL.py`: stream constants and mode formatting -/

/-- `FC2LiveDL.STREAM_QUALITY`, in insertion order. -/
def STREAM_QUALITY : List (String × Nat) :=
  [("150Kbps", 10), ("400Kbps", 20), ("1.2Mbps", 30),
   ("2Mbps", 40), ("3Mbps", 50), ("sound", 90)]

/-- `FC2LiveDL.STREAM_LATENCY`, in insertion order. -/
def STREAM_LATENCY : List (String × Nat) :=
  [("low", 0), ("high", 1), ("mid", 2)]

/-- `dict_search` inside `FC2LiveDL._format_mode`:
`list(haystack.keys())[list(haystack.values()).index(needle)]` is the first
key whose value equals the needle; `none` models the `ValueError` raised by
`.index` when the needle is absent. -/
def dict_search (haystack : List (String × Nat)) (needle : Nat) : Option String :=
  match haystack with
  | [] => none
  | (k, v) :: rest => if v = needle then some k else dict_search rest needle

/-- `FC2LiveDL._format_mode`: latency from `mode % 10`, quality from
`mode // 10 * 10` (the code computes latency first, then quality). -/
def format_mode (mode : Nat) : Option (String × String) :=
  match dict_search STREAM_LATENCY (mode % 10) with
  | none => none
  | some latency =>
    match dict_search STREAM_QUALITY (mode / 10 * 10) with
    | none => none
    | some quality => some (quality, latency)

/-- The latency name of a mode, when the mode decomposes. -/
def latency_of (mode : Nat) : Option String :=
  (format_mode mode).map (fun ql => ql.2)

/-! ### `FC2LiveDL.py`: playlist merge, sort, selection -/

/-- A playlist variant `{mode, url}` from the HLS information message. -/
structure Playlist where
  mode : Nat
  url : String
deriving DecidableEq

/-- `key_map` inside `FC2LiveDL._sort_playlists`. -/
def key_map (p : Playlist) : Nat :=
  if p.mode ≥ 90 then p.mode - 90 else p.mode

/-- The ordering used by `sorted(..., reverse=True, key=key_map)`:
`a` may come before `b` when `a`'s key is at least `b`'s. -/
def playlist_desc (a b : Playlist) : Prop :=
  key_map b ≤ key_map a

instance : DecidableRel playlist_desc :=
  fun a b => inferInstanceAs (Decidable (key_map b ≤ key_map a))

instance : IsTotal Playlist playlist_desc :=
  ⟨fun a b => Nat.le_total (key_map b) (key_map a)⟩

instance : IsTrans Playlist playlist_desc :=
  ⟨fun _ _ _ hab hbc => Nat.le_trans hbc hab⟩

/-- `FC2LiveDL._sort_playlists`: Python's `sorted(..., reverse=True, key=key_map)`
is a stable descending sort by `key_map`; insertion sort with `playlist_desc`
realises exactly that order. -/
def sort_playlists (merged_playlists : List Playlist) : List Playlist :=
  List.insertionSort playlist_desc merged_playlists

/-- The `arguments` of a `get_hls_information` response; each field models one
of the three sibling keys, `none` standing for an absent key. -/
structure HlsInfo where
  playlists : Option (List Playlist)
  playlists_high_latency : Option (List Playlist)
  playlists_middle_latency : Option (List Playlist)
deriving DecidableEq

/-- A present key contributes its list, an absent key nothing. -/
def opt_list : Option (List Playlist) → List Playlist
  | none => []
  | some l => l

/-- `FC2LiveDL._merge_playlists`: extend over the keys
`playlists`, `playlists_high_latency`, `playlists_middle_latency` in order. -/
def merge_playlists (info : HlsInfo) : List Playlist :=
  opt_list info.playlists ++ opt_list info.playlists_high_latency ++
    opt_list info.playlists_middle_latency

/-- The exceptions of `fc2.py` / `hls.py` the claims mention, plus `ValueError`
for `dict_search` misses inside `_get_playlist_or_best`. -/
inductive FC2Error where
  | StreamEnded
  | EmptyPlaylistException
  | ValueError
deriving DecidableEq

/-- The first loop of `FC2LiveDL._get_playlist_or_best`:
`for p in sorted_playlists: if p["mode"] == mode: playlist = p` keeps the
last match. -/
def last_match (mode : Nat) : List Playlist → Option Playlist
  | [] => none
  | p :: rest =>
    match last_match mode rest with
    | some q => some q
    | none => if p.mode = mode then some p else none

/-- The second loop of `FC2LiveDL._get_playlist_or_best`: first playlist whose
latency name equals the requested one, `_format_mode` failures raising
`ValueError`. -/
def find_latency_match (mode : Nat) : List Playlist → Except FC2Error (Option Playlist)
  | [] => .ok none
  | p :: rest =>
    match format_mode p.mode, format_mode mode with
    | some pf, some rf =>
      if pf.2 = rf.2 then .ok (some p) else find_latency_match mode rest
    | _, _ => .error .ValueError

/-- `FC2LiveDL._get_playlist_or_best`. -/
def get_playlist_or_best (sorted_playlists : List Playlist) (mode : Nat) :
    Except FC2Error Playlist :=
  match sorted_playlists with
  | [] => .error .EmptyPlaylistException
  | first :: rest =>
    match last_match mode (first :: rest) with
    | some p => .ok p
    | none =>
      match find_latency_match mode (first :: rest) with
      | .error e => .error e
      | .ok (some p) => .ok p
      | .ok none => .ok first

/-- `FC2LiveDL._get_hls_url`: merge, sort, select, return `(url, mode)`. -/
def get_hls_url (hls_info : HlsInfo) (mode : Nat) : Except FC2Error (String × Nat) :=
  match get_playlist_or_best (sort_playlists (merge_playlists hls_info)) mode with
  | .error e => .error e
  | .ok p => .ok (p.url, p.mode)

/-! ### `fc2.py`: `FC2WebSocket.get_hls_information`

An attempt's outcome is what `_send_message_and_wait` hands back: `none` for a
timeout (or failed send), `some info` for a `_response_` whose `arguments` are
`info`.  The loop state is `(msg, tries)` plus the list of backoff sleeps
performed; the loop body runs while `msg is None and tries < 5`, so five
iterations bound it and fuel 6 never runs out. -/

/-- The `while` loop of `get_hls_information`.  Per iteration: receive the
attempt's outcome, compute `backoff_delay = 2 ** tries`, increment `tries`;
a timeout or a response lacking the `playlists` key resets `msg` to `None`
and sleeps the backoff. -/
def get_hls_info_loop (attempts : Nat → Option HlsInfo) :
    Nat → Option HlsInfo → Nat → List Nat → Option HlsInfo × Nat × List Nat
  | 0, msg, tries, delays => (msg, tries, delays)
  | fuel + 1, msg, tries, delays =>
    if msg = none ∧ tries < 5 then
      match attempts tries with
      | none =>
        get_hls_info_loop attempts fuel none (tries + 1) (delays ++ [2 ^ tries])
      | some info =>
        if info.playlists = none then
          get_hls_info_loop attempts fuel none (tries + 1) (delays ++ [2 ^ tries])
        else
          get_hls_info_loop attempts fuel (some info) (tries + 1) delays
    else (msg, tries, delays)

/-- `FC2WebSocket.get_hls_information`: after the loop, `if tries == max_tries:
raise self.EmptyPlaylistException()`, else `return msg["arguments"]` (the
`none` fallback models the `TypeError` of subscripting `None`; it is
unreachable). -/
def get_hls_information (attempts : Nat → Option HlsInfo) : Except FC2Error HlsInfo :=
  match get_hls_info_loop attempts 6 none 0 [] with
  | (msg, tries, _) =>
    if tries = 5 then .error .EmptyPlaylistException
    else
      match msg with
      | some m => .ok m
      | none => .error .ValueError

/-- The backoff sleeps `get_hls_information` performs, in order. -/
def get_hls_delays (attempts : Nat → Option HlsInfo) : List Nat :=
  (get_hls_info_loop attempts 6 none 0 []).2.2

/-! ### `util.py`: `sanitize_filename` -/

/-- The characters of the character class in
`re.sub(r"[\\/:*?\"<>|]+", "_", fname)`. -/
def forbidden_char (c : Char) : Bool :=
  c = '\\' || c = '/' || c = ':' || c = '*' || c = '?' || c = '\"' ||
    c = '<' || c = '>' || c = '|'

/-- `re.sub(r"[\\/:*?\"<>|]+", "_", fname)`: every maximal run of forbidden
characters becomes one underscore.  `inRun` records whether the previous
character belonged to a forbidden run. -/
def collapse_forbidden (inRun : Bool) : List Char → List Char
  | [] => []
  | c :: cs =>
    if forbidden_char c then
      if inRun then collapse_forbidden true cs
      else '_' :: collapse_forbidden true cs
    else c :: collapse_forbidden false cs

/-- The character class of `re.sub(r"[\x00-\x1f\x7f]", "", fname)`. -/
def is_ctrl (c : Char) : Bool :=
  c.toNat ≤ 0x1f || c.toNat = 0x7f

/-- `re.sub(r"[\x00-\x1f\x7f]", "", fname)`. -/
def remove_ctrl (l : List Char) : List Char :=
  l.filter (fun c => !(is_ctrl c))

/-- The characters Python's `str.strip()` (no argument) removes: the Unicode
whitespace set of `str.isspace`. -/
def py_space (c : Char) : Bool :=
  (9 ≤ c.toNat && c.toNat ≤ 13) || (28 ≤ c.toNat && c.toNat ≤ 31) ||
    c.toNat = 32 || c.toNat = 133 || c.toNat = 160 || c.toNat = 0x1680 ||
    (0x2000 ≤ c.toNat && c.toNat ≤ 0x200a) || c.toNat = 0x2028 ||
    c.toNat = 0x2029 || c.toNat = 0x202f || c.toNat = 0x205f ||
    c.toNat = 0x3000

/-- Python's `str.strip(chars)`: drop the matching characters from both ends. -/
def strip_by (p : Char → Bool) (l : List Char) : List Char :=
  ((l.dropWhile p).reverse.dropWhile p).reverse

/-- The `badnames` list of `sanitize_filename`, split from its triple-quoted
string. -/
def badnames : List (List Char) :=
  ["CON".data, "PRN".data, "AUX".data, "NUL".data,
   "COM1".data, "COM2".data, "COM3".data, "COM4".data, "COM5".data,
   "COM6".data, "COM7".data, "COM8".data, "COM9".data,
   "LPT1".data, "LPT2".data, "LPT3".data, "LPT4".data, "LPT5".data,
   "LPT6".data, "LPT7".data, "LPT8".data, "LPT9".data]

/-- One reserved-name test of the loop body:
`fup == badname or fup.startswith(badname + ".")`. -/
def bn_match (bn fup : List Char) : Prop :=
  fup = bn ∨ (bn ++ ['.']).isPrefixOf fup

instance (bn fup : List Char) : Decidable (bn_match bn fup) :=
  inferInstanceAs (Decidable (_ ∨ _))

/-- The reserved-name loop: `fup` is computed once from `fname` before the
loop, so every prepended underscore uses the same `fup`. -/
def apply_badnames (fname : List Char) : List Char :=
  badnames.foldl
    (fun f bn => if bn_match bn (fname.map Char.toUpper) then '_' :: f else f)
    fname

/-- The value of `fname` just before the reserved-name loop: collapse
forbidden runs to `_`, delete ASCII controls, strip whitespace, strip dots. -/
def stripped_stem (fname : List Char) : List Char :=
  strip_by (fun c => c = '.')
    (strip_by py_space
      (remove_ctrl (collapse_forbidden false fname)))

/-- `util.sanitize_filename` on the character list of the input: collapse
forbidden runs to `_`, delete ASCII controls, strip whitespace, strip dots,
then prefix `_` if the uppercased stem is a reserved device name.
(Python's `str.upper` is modelled by `Char.toUpper`, which agrees with it on
ASCII, and the reserved names are ASCII.) -/
def sanitize_filename (fname : List Char) : List Char :=
  apply_badnames (stripped_stem fname)

/-- "No leading or trailing whitespace": what the conditional idempotence of
`sanitize_filename` needs of its result. -/
def no_edge_space (l : List Char) : Prop :=
  (∀ c, l.head? = some c → py_space c = false) ∧
    (∀ c, l.getLast? = some c → py_space c = false)

/-! ### `hls.py`: playlist poller (`_get_fragment_urls`, `_fill_queue`) -/

/-- An HTTP response: status and text body. -/
structure HttpResp where
  status : Nat
  body : String
deriving DecidableEq

/-- Python's `line.strip()` on a `String`. -/
def py_strip (s : String) : String :=
  String.mk (strip_by py_space s.data)

/-- `HLSDownloader._get_fragment_urls`: 403 raises `FC2WebSocket.StreamEnded`,
404 returns `[]`, anything else parses the body — keep the lines that are
non-empty and do not start with `#`, stripped. -/
def get_fragment_urls (resp : HttpResp) : Except FC2Error (List String) :=
  if resp.status = 403 then .error .StreamEnded
  else if resp.status = 404 then .ok []
  else
    .ok (((resp.body.splitOn "\n").filter
      (fun line => line.length > 0 && line.front != '#')).map py_strip)

/-- One `_fill_queue` iteration after a successful fetch: `new_idx` is one
past the first occurrence of `last_fragment` (0 when absent or `None`), the
fragments from `new_idx` on are enqueued with consecutive indices, and
`last_fragment` becomes the last enqueued fragment, if any.
Returns (enqueued pairs, new `last_fragment`, new `frag_idx`). -/
def fill_queue_step (last_fragment : Option String) (frag_idx : Nat)
    (frags : List String) : List (Nat × String) × Option String × Nat :=
  let new_idx : Nat :=
    match last_fragment with
    | none => 0
    | some lf =>
      match frags.indexOf? lf with
      | none => 0
      | some i => i + 1
  let newFrags := frags.drop new_idx
  (newFrags.enum.map (fun fi => (frag_idx + fi.1, fi.2)),
   newFrags.getLast? <|> last_fragment,
   frag_idx + newFrags.length)

/-- `HLSDownloader._fill_queue` over a script of poll responses: the loop body
is wrapped in `except Exception: log; return`, so a fetch error (including the
`StreamEnded` of a 403) is caught and the coroutine returns normally — the
returned value records the enqueued fragments and the error that was caught,
if any.  (The 30-second stall timer is wall-clock time and is not modelled;
the script ending models the loop still running.) -/
def fill_queue (last_fragment : Option String) (frag_idx : Nat)
    (acc : List (Nat × String)) :
    List HttpResp → Except FC2Error (List (Nat × String) × Option FC2Error)
  | [] => .ok (acc, none)
  | resp :: rest =>
    match get_fragment_urls resp with
    | .error e => .ok (acc, some e)
    | .ok frags =>
      match fill_queue_step last_fragment frag_idx frags with
      | (enq, last', idx') => fill_queue last' idx' (acc ++ enq) rest

/-! ### `hls.py`: download workers (`_download_worker`) -/

/-- What one worker iteration does with the fragment it popped. -/
inductive WorkerAction where
  | payload (index : Nat) (body : String)
  | requeue (index : Nat) (url : String) (tries : Nat)
deriving DecidableEq

/-- The body of `HLSDownloader._download_worker` for a popped
`(i, (url, tries))` whose GET produced `resp`: status above 299 retries
(`tries < 5`) or gives up with empty bytes; otherwise the body is enqueued. -/
def download_worker_step (i : Nat) (url : String) (tries : Nat)
    (resp : HttpResp) : WorkerAction :=
  if resp.status > 299 then
    if tries < 5 then .requeue i url (tries + 1)
    else .payload i ""
  else .payload i resp.body

/-- Following one fragment through the worker pool: attempt `t` receives
response `resps t`; a requeued fragment is eventually popped again and
retried.  Returns the `(index, bytes)` pair put on the payload queue, `none`
if the fuel runs out first. -/
def download_worker_run (i : Nat) (url : String) (resps : Nat → HttpResp) :
    Nat → Nat → Option (Nat × String)
  | _, 0 => none
  | tries, fuel + 1 =>
    match download_worker_step i url tries (resps tries) with
    | .payload j body => some (j, body)
    | .requeue j u t => download_worker_run j u resps t fuel

/-! ### `hls.py`: ordered reader (`_read` / `read`) and the byte sink

The payload priority queue (`_frag_data`), the fragments still on their way
to it, the reader cursor and the bytes written so far form the state; the
steps are: a worker delivers the next pending payload into the queue, or the
reader pops the queue's minimum and either yields it (index = cursor) or puts
it back.  `FC2LiveDL._download_stream` appends every yielded payload to the
output file, which the `output` field records. -/

/-- A payload queue entry `(index, bytes)`. -/
abbrev Frag := Nat × List Nat

/-- `asyncio.PriorityQueue.get`: remove a minimal entry (entries have distinct
indices in every run we consider, so comparing indices is enough). -/
def popMin : List Frag → Option (Frag × List Frag)
  | [] => none
  | x :: xs =>
    match popMin xs with
    | none => some (x, [])
    | some (m, rest) => if x.1 ≤ m.1 then some (x, xs) else some (m, x :: rest)

/-- Downloader pipeline state: payloads not yet enqueued (in delivery order),
the payload queue contents, the reader cursor, and the payloads yielded to the
byte sink so far. -/
structure DLState where
  incoming : List Frag
  queue : List Frag
  cursor : Nat
  output : List (List Nat)
deriving DecidableEq

/-- One step of the downloader pipeline: a delivery into `_frag_data`, or one
iteration of `HLSDownloader._read` (pop the minimum; yield it if its index is
the cursor, else put it back). -/
inductive DLStep : DLState → DLState → Prop
  | deliver (d : Frag) (rest : List Frag) (s : DLState) :
      s.incoming = d :: rest →
      DLStep s ⟨rest, d :: s.queue, s.cursor, s.output⟩
  | readHit (f : Frag) (q : List Frag) (s : DLState) :
      popMin s.queue = some (f, q) → f.1 = s.cursor →
      DLStep s ⟨s.incoming, q, s.cursor + 1, s.output ++ [f.2]⟩
  | readMiss (f : Frag) (q : List Frag) (s : DLState) :
      popMin s.queue = some (f, q) → f.1 ≠ s.cursor →
      DLStep s ⟨s.incoming, q ++ [f], s.cursor, s.output⟩

/-- Reachability in the downloader pipeline. -/
def DLReaches : DLState → DLState → Prop :=
  Relation.ReflTransGen DLStep

/-- The pipeline invariant, for a session whose fragment `i` has body `f i`
and whose fragments number `N`: the indices still in flight (to be delivered
or queued) are exactly `cursor, …, N-1`, every in-flight payload is its
index's body, and the byte sink holds the bodies of `0, …, cursor-1` in
order. -/
def DLInv (f : Nat → List Nat) (N : Nat) (s : DLState) : Prop :=
  List.Perm ((s.incoming ++ s.queue).map Prod.fst)
      (List.range' s.cursor (N - s.cursor)) ∧
    (∀ fr ∈ s.incoming ++ s.queue, fr.2 = f fr.1) ∧
    s.output = (List.range s.cursor).map f

/-! ### `util.py`: `AsyncMap` -/

/-- The phases of one `AsyncMap.pop(key)` call: just invoked (not yet inside
`cond.wait()`), parked in `cond.wait()`, woken by a `notify_all`, or returned
with a value.  The code calls `await self._cond.wait()` before its first
look at the map, so `invoked` can only move to `waiting`. -/
inductive WaiterPhase (V : Type) where
  | invoked : WaiterPhase V
  | waiting : WaiterPhase V
  | notified : WaiterPhase V
  | returned : V → WaiterPhase V
deriving DecidableEq

/-- `AsyncMap` state as seen by one `pop(k)` call: the dict and the call's
phase. -/
structure AMState (V : Type) where
  map : List (Nat × V)
  waiter : WaiterPhase V
deriving DecidableEq

/-- Python dict lookup on the association-list model. -/
def am_lookup (k : Nat) : List (Nat × V) → Option V
  | [] => none
  | (k', v) :: rest => if k' = k then some v else am_lookup k rest

/-- Python `dict.pop(k)`: remove the binding of `k`. -/
def am_remove (k : Nat) : List (Nat × V) → List (Nat × V)
  | [] => []
  | (k', v) :: rest => if k' = k then rest else (k', v) :: am_remove k rest

/-- Python `dict[k] = v`. -/
def am_insert (k : Nat) (v : V) : List (Nat × V) → List (Nat × V)
  | [] => [(k, v)]
  | (k', v') :: rest =>
    if k' = k then (k, v) :: rest else (k', v') :: am_insert k v rest

/-- What `notify_all` does to the waiter: it wakes a parked `cond.wait()` and
nothing else — a `pop` that has not yet reached `cond.wait()` misses it. -/
def notify_phase : WaiterPhase V → WaiterPhase V
  | .waiting => .notified
  | w => w

/-- The transitions of `AsyncMap` around one `pop(k)` call:
`startWait` is the `await self._cond.wait()` that begins every loop
iteration *before* any membership test; `put` is `AsyncMap.put(k', v)`
(store, then `notify_all`); `deliver` and `recheck` are the post-wakeup
`if key in self._map` test. -/
inductive AMStep (k : Nat) : AMState V → AMState V → Prop
  | startWait (s : AMState V) :
      s.waiter = .invoked → AMStep k s ⟨s.map, .waiting⟩
  | put (s : AMState V) (k' : Nat) (v : V) :
      AMStep k s ⟨am_insert k' v s.map, notify_phase s.waiter⟩
  | deliver (s : AMState V) (v : V) :
      s.waiter = .notified → am_lookup k s.map = some v →
      AMStep k s ⟨am_remove k s.map, .returned v⟩
  | recheck (s : AMState V) :
      s.waiter = .notified → am_lookup k s.map = none →
      AMStep k s ⟨s.map, .waiting⟩

/-- The sub-relation of `AMStep` in which no `put` occurs: only the `pop(k)`
call itself runs. -/
inductive AMStepLocal (k : Nat) : AMState V → AMState V → Prop
  | startWait (s : AMState V) :
      s.waiter = .invoked → AMStepLocal k s ⟨s.map, .waiting⟩
  | deliver (s : AMState V) (v : V) :
      s.waiter = .notified → am_lookup k s.map = some v →
      AMStepLocal k s ⟨am_remove k s.map, .returned v⟩
  | recheck (s : AMState V) :
      s.waiter = .notified → am_lookup k s.map = none →
      AMStepLocal k s ⟨s.map, .waiting⟩

/-- The five timeouts followed by a success: attempts 0–3 time out, attempt 4
(the fifth and last) returns a response whose arguments contain `playlists`. -/
def fifth_try_attempts : Nat → Option HlsInfo := fun t =>
  if t = 4 then some ⟨some [⟨52, "https://example/playlist.m3u8"⟩], none, none⟩
  else none

/-- The out-of-order delivery `(2,B)(0,A)(1,nil)` of the spec scenario, with
`A = [1]`, `nil = []`, `B = [2]`. -/
def ex_deliveries : List Frag := [(2, [2]), (0, [1]), (1, [])]

/-- The payload of each index in the spec scenario. -/
def ex_payload : Nat → List Nat := fun i =>
  if i = 0 then [1] else if i = 1 then [] else [2]

/-! ## Theorems -/

/-- A run without `put` steps is a run of the full `AsyncMap` model. -/
lemma AMStepLocal.toAMStep {V : Type} {k : Nat} {s s' : AMState V}
    (h : AMStepLocal k s s') : AMStep k s s' := by
  cases h with
  | startWait h => exact AMStep.startWait s h
  | deliver v h1 h2 => exact AMStep.deliver s v h1 h2
  | recheck h1 h2 => exact AMStep.recheck s h1 h2

/-- C4 counterexample: the claim expects mode 52 to carry latency `"high"`,
but `STREAM_LATENCY` maps the ones digit 2 to `"mid"` (`"high"` is 1), so
`_format_mode(52)` is `("3Mbps", "mid")`. -/
theorem format_mode_52_is_not_high :
    format_mode 52 ≠ some ("3Mbps", "high") := by decide

/-- C4 (amended): mode 52 decomposes to quality `"3Mbps"` and latency
`"mid"`; mode 90 to quality `"sound"` and latency `"low"`; in general the
quality is looked up from the tens component and the latency from the ones
component of the mode. -/
theorem format_mode_decomposition :
    format_mode 52 = some ("3Mbps", "mid") ∧
    format_mode 90 = some ("sound", "low") ∧
    (∀ mode q l, format_mode mode = some (q, l) →
      dict_search STREAM_LATENCY (mode % 10) = some l ∧
      dict_search STREAM_QUALITY (mode / 10 * 10) = some q) := by
  refine ⟨by decide, by decide, ?_⟩
  intro mode q l h
  unfold format_mode at h
  cases hl : dict_search STREAM_LATENCY (mode % 10) with
  | none => rw [hl] at h; simp at h
  | some lat =>
    rw [hl] at h
    cases hq : dict_search STREAM_QUALITY (mode / 10 * 10) with
    | none => rw [hq] at h; simp at h
    | some qu =>
      rw [hq] at h
      simp only [Option.some.injEq, Prod.mk.injEq] at h
      rw [h.1, h.2]
      exact ⟨rfl, rfl⟩

/-- C6: the three sibling playlist keys are merged in order into one list;
sorting is descending in the key `mode - 90` if `mode ≥ 90` else `mode`
(every adjacent pair is ordered, and sorting permutes the merged list);
and the example modes `[10, 52, 90, 30]` sort to `[52, 30, 10, 90]`. -/
theorem merge_sort_playlists_spec :
    (∀ info : HlsInfo, merge_playlists info =
      opt_list info.playlists ++ opt_list info.playlists_high_latency ++
        opt_list info.playlists_middle_latency) ∧
    (∀ l : List Playlist, List.Sorted playlist_desc (sort_playlists l) ∧
      List.Perm (sort_playlists l) l) ∧
    (sort_playlists [⟨10, "a"⟩, ⟨52, "b"⟩, ⟨90, "c"⟩, ⟨30, "d"⟩]).map Playlist.mode
      = [52, 30, 10, 90] :=
  ⟨fun _ => rfl,
   fun l => ⟨List.sorted_insertionSort playlist_desc l,
             List.perm_insertionSort playlist_desc l⟩,
   by decide⟩

/-- C10: when the three playlist keys merge to the empty list,
`_get_playlist_or_best` (hence `_get_hls_url`) raises
`EmptyPlaylistException` — a raising site distinct from the retry
exhaustion inside `get_hls_information`. -/
theorem get_hls_url_empty_raises (info : HlsInfo) (mode : Nat)
    (h : merge_playlists info = []) :
    get_hls_url info mode = .error .EmptyPlaylistException := by
  unfold get_hls_url
  rw [h]
  rfl

/-- Witness for C10: all three keys absent. -/
theorem get_hls_url_empty_raises_witness :
    get_hls_url ⟨none, none, none⟩ 52 = .error .EmptyPlaylistException :=
  get_hls_url_empty_raises ⟨none, none, none⟩ 52 rfl

/-- C2 (code bug): attempts 0–3 time out and attempt 4 — the fifth and
last — returns a response containing `playlists`; the timeouts back off
`2^attempt` seconds each, yet `get_hls_information` still raises
`EmptyPlaylistException`, because `if tries == max_tries` fires even when the
final attempt succeeded.  The claim (return whenever some attempt yields a
`playlists` response) matches the exception's own docstring; the code's
off-by-one contradicts both. -/
theorem get_hls_information_fifth_success_still_raises :
    (∀ t, t < 4 → fifth_try_attempts t = none) ∧
    (∃ info, fifth_try_attempts 4 = some info ∧ info.playlists.isSome) ∧
    get_hls_delays fifth_try_attempts = [1, 2, 4, 8] ∧
    get_hls_information fifth_try_attempts = .error .EmptyPlaylistException :=
  ⟨by decide, ⟨_, rfl, rfl⟩, by decide, by decide⟩

/-- C3 counterexample: on an HTTP 403 poll, `_get_fragment_urls` raises
`StreamEnded`, but `_fill_queue` catches every `Exception`, logs it, and
returns normally — the run ends as a value (`.ok`), not as a propagated
error. -/
theorem fill_queue_403_not_propagated :
    get_fragment_urls ⟨403, "body"⟩ = .error .StreamEnded ∧
    fill_queue none 0 [] [⟨403, "body"⟩] = .ok ([], some .StreamEnded) :=
  ⟨rfl, rfl⟩

/-- C3 (amended): an HTTP 403 media-playlist response makes
`_get_fragment_urls` raise `StreamEnded`, which terminates the polling loop,
but `_fill_queue` catches the exception and returns normally, so the error
does not propagate out of the poller; an HTTP 404 yields the empty fragment
list and polling continues with the next poll unchanged. -/
theorem fill_queue_http_codes :
    (∀ body, get_fragment_urls ⟨403, body⟩ = .error .StreamEnded) ∧
    (∀ body, get_fragment_urls ⟨404, body⟩ = .ok []) ∧
    (∀ last idx acc body rest,
      fill_queue last idx acc (⟨403, body⟩ :: rest) = .ok (acc, some .StreamEnded)) ∧
    (∀ last idx acc body rest,
      fill_queue last idx acc (⟨404, body⟩ :: rest) = fill_queue last idx acc rest) := by
  refine ⟨fun body => rfl, fun body => rfl, fun last idx acc body rest => rfl, ?_⟩
  intro last idx acc body rest
  cases last with
  | none => simp [fill_queue, fill_queue_step, get_fragment_urls]
  | some lf => simp [fill_queue, fill_queue_step, get_fragment_urls]

/-- A fragment reaches the payload queue with at most `6 - tries` more
attempts (the worker retries while `tries < 5`), and keeps its index. -/
lemma download_worker_run_some (i : Nat) (url : String) (resps : Nat → HttpResp) :
    ∀ fuel tries, 6 ≤ tries + fuel → tries ≤ 5 →
      ∃ body, download_worker_run i url resps tries fuel = some (i, body) := by
  intro fuel
  induction fuel generalizing i url with
  | zero => intro tries h1 h2; omega
  | succ f ih =>
    intro tries h1 h2
    unfold download_worker_run download_worker_step
    by_cases hs : (resps tries).status > 299
    · rw [if_pos hs]
      by_cases ht : tries < 5
      · rw [if_pos ht]
        exact ih i url (tries + 1) (by omega) (by omega)
      · rw [if_neg ht]
        exact ⟨"", rfl⟩
    · rw [if_neg hs]
      exact ⟨(resps tries).body, rfl⟩

/-- C7: a popped fragment with status below 300 is enqueued as
`(index, body)`; with status 300 or above it is re-enqueued as
`(index, url, attempts+1)` while `attempts < 5` and enqueued as
`(index, empty-bytes)` once attempts have reached 5 — so, whatever statuses
the attempts receive, every fragment's index lands on the payload queue
within six attempts and the output stream never stalls. -/
theorem download_worker_disposition :
    (∀ i url tries status body, status < 300 →
      download_worker_step i url tries ⟨status, body⟩ = .payload i body) ∧
    (∀ i url tries status body, 300 ≤ status → tries < 5 →
      download_worker_step i url tries ⟨status, body⟩ = .requeue i url (tries + 1)) ∧
    (∀ i url tries status body, 300 ≤ status → 5 ≤ tries →
      download_worker_step i url tries ⟨status, body⟩ = .payload i "") ∧
    (∀ i url resps, ∃ body,
      download_worker_run i url resps 0 6 = some (i, body)) := by
  refine ⟨?_, ?_, ?_, ?_⟩
  · intro i url tries status body h
    unfold download_worker_step
    rw [if_neg (by simp only [gt_iff_lt]; omega)]
  · intro i url tries status body h ht
    unfold download_worker_step
    rw [if_pos (by simp only [gt_iff_lt]; omega), if_pos ht]
  · intro i url tries status body h ht
    unfold download_worker_step
    rw [if_pos (by simp only [gt_iff_lt]; omega), if_neg (by omega)]
  · intro i url resps
    exact download_worker_run_some i url resps 6 0 (by omega) (by omega)

/-- C9 (code bug): `AsyncMap.pop` parks in `cond.wait()` before its first
look at the map, so when the `put` completed before the `pop` was invoked
and no later `put` arrives to issue another `notify_all`, the waiter can
only move from `invoked` to `waiting` and never returns — although its key
is present in the map the whole time. -/
theorem asyncmap_pop_lost_wakeup (v0 : Nat) (s' : AMState Nat)
    (hreach : Relation.ReflTransGen (AMStepLocal 1) ⟨[(1, v0)], .invoked⟩ s') :
    ∀ v, s'.waiter ≠ WaiterPhase.returned v := by
  have key : s'.waiter = WaiterPhase.invoked ∨ s'.waiter = WaiterPhase.waiting := by
    induction hreach with
    | refl => exact .inl rfl
    | tail hsteps hstep ih =>
      cases hstep with
      | startWait h => exact .inr rfl
      | deliver v h1 h2 => rcases ih with h | h <;> rw [h1] at h <;> cases h
      | recheck h1 h2 => rcases ih with h | h <;> rw [h1] at h <;> cases h
  intro v hv
  rcases key with h | h <;> rw [hv] at h <;> cases h

/-- Witness for C9: before taking any step, the just-invoked `pop(1)` has
not returned `7` even though `put(1, 7)` already completed. -/
theorem asyncmap_pop_lost_wakeup_witness :
    (⟨[(1, 7)], .invoked⟩ : AMState Nat).waiter ≠ WaiterPhase.returned 7 :=
  asyncmap_pop_lost_wakeup 7 ⟨[(1, 7)], .invoked⟩ Relation.ReflTransGen.refl 7

/-- What `last_match` returns is an element of the list with the requested
mode. -/
lemma last_match_mem_eq {mode : Nat} {l : List Playlist} {q : Playlist}
    (h : last_match mode l = some q) : q ∈ l ∧ q.mode = mode := by
  induction l with
  | nil => simp [last_match] at h
  | cons p rest ih =>
    unfold last_match at h
    cases hr : last_match mode rest with
    | some q' =>
      rw [hr] at h
      obtain rfl : q' = q := Option.some.inj h
      have hq := ih hr
      exact ⟨List.mem_cons_of_mem p hq.1, hq.2⟩
    | none =>
      rw [hr] at h
      by_cases hp : p.mode = mode
      · rw [if_pos hp] at h
        obtain rfl : p = q := Option.some.inj h
        exact ⟨List.mem_cons_self p rest, hp⟩
      · rw [if_neg hp] at h
        cases h

/-- `last_match` misses exactly when no element has the requested mode. -/
lemma last_match_eq_none {mode : Nat} {l : List Playlist} :
    last_match mode l = none ↔ ∀ p ∈ l, p.mode ≠ mode := by
  induction l with
  | nil => simp [last_match]
  | cons p rest ih =>
    unfold last_match
    cases hr : last_match mode rest with
    | some q =>
      have hq := last_match_mem_eq hr
      simp only [List.mem_cons]
      constructor
      · intro h; cases h
      · intro hall
        exact absurd hq.2 (hall q (.inr hq.1))
    | none =>
      by_cases hp : p.mode = mode
      · rw [if_pos hp]
        simp only [List.mem_cons]
        constructor
        · intro h; cases h
        · intro hall; exact absurd hp (hall p (.inl rfl))
      · rw [if_neg hp]
        simp only [List.mem_cons, true_iff]
        intro x hx
        rcases hx with h | h
        · rw [h]; exact hp
        · exact ih.mp hr x h

/-- When every scanned mode decomposes and none matches the requested
latency, the latency fallback scan returns `none`. -/
lemma find_latency_match_none {mode : Nat} {l : List Playlist}
    (hwf : ∀ p ∈ l, (format_mode p.mode).isSome)
    (hm : (format_mode mode).isSome)
    (hno : ∀ p ∈ l, latency_of p.mode ≠ latency_of mode) :
    find_latency_match mode l = .ok none := by
  induction l with
  | nil => rfl
  | cons p rest ih =>
    obtain ⟨pf, hpf⟩ := Option.isSome_iff_exists.mp (hwf p (List.mem_cons_self p rest))
    obtain ⟨rf, hrf⟩ := Option.isSome_iff_exists.mp hm
    unfold find_latency_match
    rw [hpf, hrf]
    have hneq : pf.2 ≠ rf.2 := by
      intro he
      apply hno p (List.mem_cons_self p rest)
      unfold latency_of
      rw [hpf, hrf]
      simp [he]
    show (if pf.2 = rf.2 then Except.ok (some p)
      else find_latency_match mode rest) = Except.ok none
    rw [if_neg hneq]
    exact ih (fun x hx => hwf x (List.mem_cons_of_mem p hx))
      (fun x hx => hno x (List.mem_cons_of_mem p hx))

/-- The latency fallback scan returns the first latency match. -/
lemma find_latency_match_first {mode : Nat} {p : Playlist} {pre post : List Playlist}
    (hwf : ∀ x ∈ pre ++ p :: post, (format_mode x.mode).isSome)
    (hm : (format_mode mode).isSome)
    (hpre : ∀ x ∈ pre, latency_of x.mode ≠ latency_of mode)
    (hp : latency_of p.mode = latency_of mode) :
    find_latency_match mode (pre ++ p :: post) = .ok (some p) := by
  induction pre with
  | nil =>
    obtain ⟨pf, hpf⟩ := Option.isSome_iff_exists.mp
      (hwf p (List.mem_cons_self p post))
    obtain ⟨rf, hrf⟩ := Option.isSome_iff_exists.mp hm
    rw [List.nil_append]
    unfold find_latency_match
    rw [hpf, hrf]
    have heq : pf.2 = rf.2 := by
      have h1 : latency_of p.mode = some pf.2 := by unfold latency_of; rw [hpf]; rfl
      have h2 : latency_of mode = some rf.2 := by unfold latency_of; rw [hrf]; rfl
      rw [h1, h2] at hp
      exact Option.some.inj hp
    show (if pf.2 = rf.2 then Except.ok (some p)
      else find_latency_match mode post) = Except.ok (some p)
    rw [if_pos heq]
  | cons x pre' ih =>
    obtain ⟨xf, hxf⟩ := Option.isSome_iff_exists.mp
      (hwf x (List.mem_cons_self x (pre' ++ p :: post)))
    obtain ⟨rf, hrf⟩ := Option.isSome_iff_exists.mp hm
    rw [List.cons_append]
    unfold find_latency_match
    rw [hxf, hrf]
    have hneq : xf.2 ≠ rf.2 := by
      intro he
      apply hpre x (List.mem_cons_self x pre')
      unfold latency_of
      rw [hxf, hrf]
      simp [he]
    show (if xf.2 = rf.2 then Except.ok (some x)
      else find_latency_match mode (pre' ++ p :: post)) = Except.ok (some p)
    rw [if_neg hneq]
    exact ih (fun y hy => hwf y (List.mem_cons_of_mem x hy))
      (fun y hy => hpre y (List.mem_cons_of_mem x hy))

/-- Unfolding equation of `get_playlist_or_best` on a non-empty list. -/
lemma get_playlist_or_best_cons (first : Playlist) (rest : List Playlist)
    (mode : Nat) :
    get_playlist_or_best (first :: rest) mode =
      match last_match mode (first :: rest) with
      | some p => Except.ok p
      | none =>
        match find_latency_match mode (first :: rest) with
        | .error e => .error e
        | .ok (some p) => .ok p
        | .ok none => .ok first := rfl

/-- C5: for a non-empty sorted playlist list whose modes (and the requested
mode) all decompose, `_get_playlist_or_best` obeys the precedence: an exact
mode match is selected when one exists; otherwise the first variant whose
latency component matches the requested one; otherwise the head of the
sorted list. -/
theorem get_playlist_or_best_precedence (first : Playlist) (rest : List Playlist)
    (mode : Nat)
    (hwf : ∀ p ∈ first :: rest, (format_mode p.mode).isSome)
    (hm : (format_mode mode).isSome) :
    ((∃ p ∈ first :: rest, p.mode = mode) →
      ∃ q, get_playlist_or_best (first :: rest) mode = .ok q ∧ q.mode = mode) ∧
    (∀ pre p post, first :: rest = pre ++ p :: post →
      (∀ x ∈ first :: rest, x.mode ≠ mode) →
      (∀ x ∈ pre, latency_of x.mode ≠ latency_of mode) →
      latency_of p.mode = latency_of mode →
      get_playlist_or_best (first :: rest) mode = .ok p) ∧
    ((∀ x ∈ first :: rest, x.mode ≠ mode) →
      (∀ x ∈ first :: rest, latency_of x.mode ≠ latency_of mode) →
      get_playlist_or_best (first :: rest) mode = .ok first) := by
  refine ⟨?_, ?_, ?_⟩
  · intro hex
    cases hq : last_match mode (first :: rest) with
    | none =>
      obtain ⟨p, hp, hpm⟩ := hex
      exact absurd hpm (last_match_eq_none.mp hq p hp)
    | some q =>
      refine ⟨q, ?_, (last_match_mem_eq hq).2⟩
      rw [get_playlist_or_best_cons, hq]
  · intro pre p post hsplit hnoexact hpre hp
    have hnone : last_match mode (first :: rest) = none :=
      last_match_eq_none.mpr hnoexact
    have hfind : find_latency_match mode (first :: rest) = .ok (some p) := by
      rw [hsplit]
      exact find_latency_match_first (hsplit ▸ hwf) hm hpre hp
    rw [get_playlist_or_best_cons, hnone, hfind]
  · intro hnoexact hnolat
    have hnone : last_match mode (first :: rest) = none :=
      last_match_eq_none.mpr hnoexact
    have hfind : find_latency_match mode (first :: rest) = .ok none :=
      find_latency_match_none hwf hm hnolat
    rw [get_playlist_or_best_cons, hnone, hfind]

/-- Witness for C5: requested mode 52 present in `[52, 50]`; the selected
variant has mode 52. -/
theorem get_playlist_or_best_precedence_witness :
    ∃ q, get_playlist_or_best [⟨52, "u"⟩, ⟨50, "v"⟩] 52 = .ok q ∧ q.mode = 52 :=
  (get_playlist_or_best_precedence ⟨52, "u"⟩ [⟨50, "v"⟩] 52 (by decide) (by decide)).1
    ⟨⟨52, "u"⟩, by decide, rfl⟩

/-- `popMin` fails only on the empty queue. -/
lemma popMin_eq_none {l : List Frag} : popMin l = none ↔ l = [] := by
  cases l with
  | nil => simp [popMin]
  | cons x xs =>
    simp only [popMin]
    cases popMin xs with
    | none => simp
    | some mr =>
      obtain ⟨m, rest⟩ := mr
      by_cases h : x.1 ≤ m.1 <;> simp [h]

/-- Popping an entry leaves a queue holding the same entries. -/
lemma popMin_perm {l : List Frag} {m : Frag} {rest : List Frag}
    (h : popMin l = some (m, rest)) : List.Perm l (m :: rest) := by
  induction l generalizing m rest with
  | nil => simp [popMin] at h
  | cons x xs ih =>
    unfold popMin at h
    cases hx : popMin xs with
    | none =>
      rw [hx] at h
      obtain ⟨rfl, rfl⟩ : x = m ∧ ([] : List Frag) = rest :=
        Prod.mk.inj (Option.some.inj h)
      rw [popMin_eq_none.mp hx]
    | some mr =>
      obtain ⟨m', rest'⟩ := mr
      rw [hx] at h
      replace h : (if x.1 ≤ m'.1 then some (x, xs)
          else some (m', x :: rest')) = some (m, rest) := h
      by_cases hle : x.1 ≤ m'.1
      · rw [if_pos hle] at h
        obtain ⟨rfl, rfl⟩ : x = m ∧ xs = rest := Prod.mk.inj (Option.some.inj h)
        exact List.Perm.refl _
      · rw [if_neg hle] at h
        obtain ⟨rfl, rfl⟩ : m' = m ∧ x :: rest' = rest :=
          Prod.mk.inj (Option.some.inj h)
        exact ((ih hx).cons x).trans (List.Perm.swap _ _ _)

/-- Every pipeline step preserves the downloader invariant. -/
lemma DLStep_inv {f : Nat → List Nat} {N : Nat} {s s' : DLState}
    (hstep : DLStep s s') (hinv : DLInv f N s) : DLInv f N s' := by
  obtain ⟨hperm, hpay, hout⟩ := hinv
  cases hstep with
  | deliver d rest s0 hin =>
    have hp : List.Perm (rest ++ d :: s.queue) (s.incoming ++ s.queue) := by
      rw [hin]
      exact List.perm_middle
    refine ⟨(hp.map Prod.fst).trans hperm, ?_, hout⟩
    intro fr hfr
    exact hpay fr (hp.mem_iff.mp hfr)
  | readHit f0 q s0 hpop hcur =>
    have hq : List.Perm s.queue (f0 :: q) := popMin_perm hpop
    have hmem : f0 ∈ s.incoming ++ s.queue :=
      List.mem_append.mpr (.inr (hq.mem_iff.mpr (List.mem_cons_self f0 q)))
    have h2 : List.Perm (s.incoming ++ s.queue) (f0 :: (s.incoming ++ q)) :=
      (hq.append_left s.incoming).trans List.perm_middle
    have h3 : List.Perm (s.cursor :: (s.incoming ++ q).map Prod.fst)
        (List.range' s.cursor (N - s.cursor)) := by
      have h := (h2.map Prod.fst).symm.trans hperm
      rw [List.map_cons, hcur] at h
      exact h
    obtain ⟨m, hm⟩ : ∃ m, N - s.cursor = m + 1 := by
      cases hNm : N - s.cursor with
      | zero =>
        rw [hNm] at h3
        have h4 : s.cursor ∈ ([] : List Nat) :=
          h3.mem_iff.mp (List.mem_cons_self _ _)
        cases h4
      | succ m => exact ⟨m, rfl⟩
    refine ⟨?_, ?_, ?_⟩
    · show List.Perm ((s.incoming ++ q).map Prod.fst)
        (List.range' (s.cursor + 1) (N - (s.cursor + 1)))
      rw [hm, List.range'_succ] at h3
      have h6 : N - (s.cursor + 1) = m := by omega
      rw [h6]
      exact h3.cons_inv
    · intro fr hfr
      apply hpay
      rcases List.mem_append.mp hfr with h | h
      · exact List.mem_append.mpr (.inl h)
      · exact List.mem_append.mpr (.inr (hq.mem_iff.mpr (List.mem_cons_of_mem f0 h)))
    · show s.output ++ [f0.2] = (List.range (s.cursor + 1)).map f
      have hf0 : f0.2 = f f0.1 := hpay f0 hmem
      rw [hout, hf0, hcur, List.range_succ, List.map_append]
      rfl
  | readMiss f0 q s0 hpop hne =>
    have hq : List.Perm s.queue (f0 :: q) := popMin_perm hpop
    have hq2 : List.Perm (q ++ [f0]) s.queue := by
      refine List.Perm.trans ?_ hq.symm
      have h : List.Perm (q ++ f0 :: []) (f0 :: (q ++ [])) := List.perm_middle
      rw [List.append_nil] at h
      exact h
    refine ⟨((hq2.append_left s.incoming).map Prod.fst).trans hperm, ?_, hout⟩
    intro fr hfr
    apply hpay
    rcases List.mem_append.mp hfr with h | h
    · exact List.mem_append.mpr (.inl h)
    · exact List.mem_append.mpr (.inr (hq2.mem_iff.mp h))

/-- The invariant holds along every reachable run. -/
lemma DLReaches_inv {f : Nat → List Nat} {N : Nat} {s s' : DLState}
    (h : DLReaches s s') (hinv : DLInv f N s) : DLInv f N s' := by
  induction h with
  | refl => exact hinv
  | tail hsteps hstep ih => exact DLStep_inv hstep ih

/-- C1: start the pipeline with an empty queue, cursor 0 and any delivery
order of exactly the fragments `0, …, N-1` (fragment `i` carrying body
`f i`); when a reachable state has advanced the cursor to `N`, the payloads
yielded to the byte sink are exactly `f 0, …, f (N-1)` in ascending index
order — no duplicates, no gaps — and the bytes written are their
concatenation. -/
theorem hls_read_in_order (f : Nat → List Nat) (N : Nat) (l0 : List Frag)
    (s : DLState)
    (hidx : List.Perm (l0.map Prod.fst) (List.range N))
    (hpay : ∀ fr ∈ l0, fr.2 = f fr.1)
    (hreach : DLReaches ⟨l0, [], 0, []⟩ s)
    (hN : s.cursor = N) :
    s.output = (List.range N).map f ∧
      s.output.flatten = ((List.range N).map f).flatten := by
  have h0 : DLInv f N (⟨l0, [], 0, []⟩ : DLState) := by
    refine ⟨?_, ?_, rfl⟩
    · simpa [List.range_eq_range'] using hidx
    · simpa using hpay
  obtain ⟨_, _, hout⟩ := DLReaches_inv hreach h0
  rw [hN] at hout
  exact ⟨hout, by rw [hout]⟩

/-- A run of the pipeline on the out-of-order delivery `(2,B)(0,A)(1,nil)`:
the reader pops `(2,B)` first and re-enqueues it, then yields `A`, `nil`,
`B` as indices 0, 1, 2 reach the cursor. -/
lemma ex_trace :
    DLReaches ⟨ex_deliveries, [], 0, []⟩ ⟨[], [], 3, [[1], [], [2]]⟩ := by
  refine Relation.ReflTransGen.head
    (DLStep.deliver (2, [2]) [(0, [1]), (1, [])] _ rfl) ?_
  refine Relation.ReflTransGen.head
    (DLStep.readMiss (2, [2]) [] _ rfl (by decide)) ?_
  refine Relation.ReflTransGen.head
    (DLStep.deliver (0, [1]) [(1, [])] _ rfl) ?_
  refine Relation.ReflTransGen.head
    (DLStep.readHit (0, [1]) [(2, [2])] _ rfl rfl) ?_
  refine Relation.ReflTransGen.head
    (DLStep.deliver (1, []) [] _ rfl) ?_
  refine Relation.ReflTransGen.head
    (DLStep.readHit (1, []) [(2, [2])] _ rfl rfl) ?_
  refine Relation.ReflTransGen.head
    (DLStep.readHit (2, [2]) [] _ rfl rfl) ?_
  exact Relation.ReflTransGen.refl

/-- Witness for C1: on the delivery order `(2,B)(0,A)(1,nil)` the pipeline
reaches cursor 3 with output `A, nil, B` — the payloads in index order. -/
theorem hls_read_in_order_witness :
    (⟨[], [], 3, [[1], [], [2]]⟩ : DLState).output = (List.range 3).map ex_payload :=
  (hls_read_in_order ex_payload 3 ex_deliveries ⟨[], [], 3, [[1], [], [2]]⟩
    (by decide) (by decide) ex_trace rfl).1

/-- The collapse step never emits a forbidden character. -/
lemma collapse_no_forbidden {b : Bool} {l : List Char} :
    ∀ c ∈ collapse_forbidden b l, forbidden_char c = false := by
  induction l generalizing b with
  | nil => intro c hc; cases hc
  | cons x xs ih =>
    intro c hc
    unfold collapse_forbidden at hc
    by_cases hf : forbidden_char x
    · rw [if_pos hf] at hc
      cases b with
      | true => exact ih c hc
      | false =>
        rcases List.mem_cons.mp hc with h | h
        · rw [h]; decide
        · exact ih c h
    · rw [if_neg hf] at hc
      rcases List.mem_cons.mp hc with h | h
      · rw [h]; exact Bool.eq_false_iff.mpr hf
      · exact ih c h

/-- The collapse step fixes strings without forbidden characters. -/
lemma collapse_id {l : List Char}
    (h : ∀ c ∈ l, forbidden_char c = false) : collapse_forbidden false l = l := by
  induction l with
  | nil => rfl
  | cons x xs ih =>
    unfold collapse_forbidden
    rw [if_neg (by rw [h x (List.mem_cons_self x xs)]; exact Bool.false_ne_true)]
    rw [ih (fun c hc => h c (List.mem_cons_of_mem x hc))]

/-- Stripping keeps only characters of the input. -/
lemma strip_by_mem {p : Char → Bool} {l : List Char} {c : Char}
    (h : c ∈ strip_by p l) : c ∈ l := by
  unfold strip_by at h
  have h1 := List.mem_reverse.mp h
  have h2 := (List.dropWhile_sublist p).subset h1
  have h3 := List.mem_reverse.mp h2
  exact (List.dropWhile_sublist p).subset h3

/-- The head surviving `dropWhile` fails the predicate. -/
lemma dropWhile_head_false {p : Char → Bool} {l : List Char} {c : Char}
    (h : (l.dropWhile p).head? = some c) : p c = false := by
  induction l with
  | nil => cases h
  | cons x xs ih =>
    rw [List.dropWhile_cons] at h
    by_cases hx : p x
    · rw [if_pos hx] at h
      exact ih h
    · rw [if_neg hx] at h
      obtain rfl : x = c := Option.some.inj h
      exact Bool.eq_false_iff.mpr hx

/-- The first character of a stripped string fails the predicate. -/
lemma strip_by_head {p : Char → Bool} {l : List Char} {c : Char}
    (h : (strip_by p l).head? = some c) : p c = false := by
  unfold strip_by at h
  rw [List.head?_reverse] at h
  set A := (l.dropWhile p).reverse with hA
  have hne : A.dropWhile p ≠ [] := by
    intro hnil
    rw [hnil] at h
    cases h
  have hsuf : (A.dropWhile p).IsSuffix A := List.dropWhile_suffix p
  obtain ⟨t, ht⟩ := hsuf
  have h2 : A.getLast? = some c := by
    rw [← ht, List.getLast?_append_of_ne_nil t hne]
    exact h
  rw [hA, List.getLast?_reverse] at h2
  exact dropWhile_head_false h2

/-- The last character of a stripped string fails the predicate. -/
lemma strip_by_last {p : Char → Bool} {l : List Char} {c : Char}
    (h : (strip_by p l).getLast? = some c) : p c = false := by
  unfold strip_by at h
  rw [List.getLast?_reverse] at h
  exact dropWhile_head_false h

/-- `dropWhile` fixes a list whose head fails the predicate. -/
lemma dropWhile_id {p : Char → Bool} {l : List Char}
    (h : ∀ c, l.head? = some c → p c = false) : l.dropWhile p = l := by
  cases l with
  | nil => rfl
  | cons x xs =>
    rw [List.dropWhile_cons,
      if_neg (by rw [h x rfl]; exact Bool.false_ne_true)]

/-- Stripping fixes a string with no matching edge characters. -/
lemma strip_by_id {p : Char → Bool} {l : List Char}
    (hh : ∀ c, l.head? = some c → p c = false)
    (hl : ∀ c, l.getLast? = some c → p c = false) : strip_by p l = l := by
  unfold strip_by
  rw [dropWhile_id hh]
  rw [dropWhile_id (fun c hc => hl c (by rwa [List.head?_reverse] at hc))]
  exact List.reverse_reverse l

/-- No reserved name is empty. -/
lemma badnames_ne_nil : ∀ bn ∈ badnames, bn ≠ [] := by decide

/-- The reserved names are pairwise distinct. -/
lemma badnames_nodup : badnames.Nodup := by decide

/-- No reserved name starts with an underscore. -/
lemma badnames_head_ne_underscore : ∀ bn ∈ badnames, bn.head? ≠ some '_' := by
  decide

/-- No dotted reserved name is a prefix of a reserved name. -/
lemma badnames_dot_not_prefix :
    ∀ b1 ∈ badnames, ∀ b2 ∈ badnames,
      (b2 ++ ['.']).isPrefixOf b1 = false := by decide

/-- Dotted reserved names are mutually non-prefixing. -/
lemma badnames_dot_prefix_inj :
    ∀ b1 ∈ badnames, ∀ b2 ∈ badnames,
      (b1 ++ ['.']).isPrefixOf (b2 ++ ['.']) = true → b1 = b2 := by decide

/-- No reserved name matches the empty stem. -/
lemma badnames_no_match_nil : ∀ bn ∈ badnames, ¬ bn_match bn [] := by decide

/-- At most one reserved name can match a given stem: the reserved-name loop
prepends at most one underscore. -/
lemma bn_match_unique {fup : List Char} {b1 b2 : List Char}
    (h1 : b1 ∈ badnames) (h2 : b2 ∈ badnames)
    (m1 : bn_match b1 fup) (m2 : bn_match b2 fup) : b1 = b2 := by
  rcases m1 with e1 | p1 <;> rcases m2 with e2 | p2
  · rw [← e1, ← e2]
  · exfalso
    rw [e1] at p2
    have := badnames_dot_not_prefix b1 h1 b2 h2
    rw [p2] at this
    cases this
  · exfalso
    rw [e2] at p1
    have := badnames_dot_not_prefix b2 h2 b1 h1
    rw [p1] at this
    cases this
  · have hp1 := List.isPrefixOf_iff_prefix.mp p1
    have hp2 := List.isPrefixOf_iff_prefix.mp p2
    rcases List.prefix_or_prefix_of_prefix hp1 hp2 with h | h
    · exact badnames_dot_prefix_inj b1 h1 b2 h2 (List.isPrefixOf_iff_prefix.mpr h)
    · exact (badnames_dot_prefix_inj b2 h2 b1 h1 (List.isPrefixOf_iff_prefix.mpr h)).symm

/-- A duplicate-free list on which a predicate holds at most at one element
counts that predicate at most once. -/
lemma countP_le_one_of_unique {L : List (List Char)} {P : List Char → Prop}
    [DecidablePred P] (hnd : L.Nodup)
    (huniq : ∀ b1 ∈ L, ∀ b2 ∈ L, P b1 → P b2 → b1 = b2) :
    L.countP (fun x => decide (P x)) ≤ 1 := by
  induction L with
  | nil => simp
  | cons a L ih =>
    rw [List.countP_cons]
    by_cases ha : P a
    · have hz : L.countP (fun x => decide (P x)) = 0 := by
        rw [List.countP_eq_zero]
        intro b hb hPb
        have hba : b = a :=
          huniq b (List.mem_cons_of_mem a hb) a (List.mem_cons_self a L)
            (of_decide_eq_true hPb) ha
        rw [hba] at hb
        exact (List.nodup_cons.mp hnd).1 hb
      simp [hz, ha]
    · have hle := ih (List.nodup_cons.mp hnd).2
        (fun x hx y hy px py =>
          huniq x (List.mem_cons_of_mem a hx) y (List.mem_cons_of_mem a hy) px py)
      simpa [ha] using hle

/-- The reserved-name fold prepends one underscore per matching name. -/
lemma foldl_prepend_underscore (P : List Char → Prop) [DecidablePred P] :
    ∀ (L : List (List Char)) (a : List Char),
      L.foldl (fun f bn => if P bn then '_' :: f else f) a =
        List.replicate (L.countP (fun bn => decide (P bn))) '_' ++ a := by
  intro L
  induction L with
  | nil => intro a; simp
  | cons bn L ih =>
    intro a
    rw [List.foldl_cons, List.countP_cons]
    by_cases h : P bn
    · rw [if_pos h, ih]
      simp [h, List.replicate_succ', List.append_assoc]
    · rw [if_neg h, ih]
      simp [h]

/-- `apply_badnames` in closed form: a replicated underscore prefix, one
underscore per matching reserved name. -/
lemma apply_badnames_eq (fname : List Char) :
    apply_badnames fname =
      List.replicate (badnames.countP
        (fun bn => decide (bn_match bn (fname.map Char.toUpper)))) '_' ++ fname :=
  foldl_prepend_underscore (fun bn => bn_match bn (fname.map Char.toUpper))
    badnames fname

/-- At most one underscore is prepended for any stem. -/
lemma bn_count_le_one (x : List Char) :
    badnames.countP (fun bn => decide (bn_match bn x)) ≤ 1 :=
  countP_le_one_of_unique badnames_nodup
    (fun _ h1 _ h2 m1 m2 => bn_match_unique h1 h2 m1 m2)

/-- A sanitized name is the stripped stem, possibly with one underscore
prepended (and the stem is non-empty in that case, the empty stem matching
no reserved name). -/
lemma sanitize_structure (l : List Char) :
    (badnames.countP (fun bn =>
        decide (bn_match bn ((stripped_stem l).map Char.toUpper))) = 0 ∧
      sanitize_filename l = stripped_stem l) ∨
    (stripped_stem l ≠ [] ∧
      sanitize_filename l = '_' :: stripped_stem l) := by
  have he : sanitize_filename l =
      List.replicate (badnames.countP (fun bn =>
        decide (bn_match bn ((stripped_stem l).map Char.toUpper)))) '_' ++
        stripped_stem l := apply_badnames_eq (stripped_stem l)
  have hk := bn_count_le_one ((stripped_stem l).map Char.toUpper)
  cases hk0 : badnames.countP (fun bn =>
      decide (bn_match bn ((stripped_stem l).map Char.toUpper))) with
  | zero =>
    left
    refine ⟨rfl, ?_⟩
    rw [he, hk0]
    simp
  | succ k' =>
    right
    rw [hk0] at hk he
    have hk1 : k' = 0 := by omega
    rw [hk1] at he
    refine ⟨?_, by simpa using he⟩
    intro hnil
    rw [hnil] at hk0
    have hz : badnames.countP (fun bn =>
        decide (bn_match bn (([] : List Char).map Char.toUpper))) = 0 := by
      rw [List.countP_eq_zero]
      intro bn hbn hd
      exact badnames_no_match_nil bn hbn (of_decide_eq_true hd)
    rw [hz] at hk0
    cases hk0

/-- Characters of a sanitized name are neither forbidden nor controls. -/
lemma mem_sanitize {l : List Char} {c : Char} (h : c ∈ sanitize_filename l) :
    forbidden_char c = false ∧ is_ctrl c = false := by
  have hs : c = '_' ∨ c ∈ stripped_stem l := by
    rcases sanitize_structure l with ⟨_, he⟩ | ⟨_, he⟩
    · right; rwa [he] at h
    · rw [he] at h
      exact List.mem_cons.mp h
  rcases hs with rfl | hs
  · exact ⟨by decide, by decide⟩
  · unfold stripped_stem at hs
    have h1 := strip_by_mem hs
    have h2 := strip_by_mem h1
    unfold remove_ctrl at h2
    have h3 := List.mem_filter.mp h2
    refine ⟨collapse_no_forbidden c h3.1, ?_⟩
    simpa using h3.2

/-- A sanitized name never has a reserved device name as stem. -/
lemma sanitize_no_reserved (l : List Char) :
    ∀ bn ∈ badnames, ¬ bn_match bn ((sanitize_filename l).map Char.toUpper) := by
  intro bn hbn hmatch
  rcases sanitize_structure l with ⟨hz, he⟩ | ⟨hne, he⟩
  · rw [he] at hmatch
    exact List.countP_eq_zero.mp hz bn hbn (decide_eq_true hmatch)
  · rw [he, List.map_cons] at hmatch
    have hup : Char.toUpper '_' = '_' := by decide
    rw [hup] at hmatch
    rcases hmatch with heq | hpref
    · apply badnames_head_ne_underscore bn hbn
      rw [← heq]
      rfl
    · cases hbc : bn with
      | nil => exact badnames_ne_nil bn hbn hbc
      | cons b0 bs =>
        rw [hbc, List.cons_append] at hpref
        simp only [List.isPrefixOf, Bool.and_eq_true, beq_iff_eq] at hpref
        apply badnames_head_ne_underscore bn hbn
        rw [hbc, hpref.1]
        rfl

/-- Sanitizing is idempotent on every input whose sanitized form has no
leading or trailing whitespace. -/
lemma sanitize_idem (l : List Char) (hns : no_edge_space (sanitize_filename l)) :
    sanitize_filename (sanitize_filename l) = sanitize_filename l := by
  have h1 : collapse_forbidden false (sanitize_filename l) = sanitize_filename l :=
    collapse_id (fun c hc => (mem_sanitize hc).1)
  have h2 : remove_ctrl (sanitize_filename l) = sanitize_filename l := by
    unfold remove_ctrl
    rw [List.filter_eq_self]
    intro c hc
    rw [(mem_sanitize hc).2]
    rfl
  have h3 : strip_by py_space (sanitize_filename l) = sanitize_filename l :=
    strip_by_id hns.1 hns.2
  show apply_badnames (stripped_stem (sanitize_filename l)) = sanitize_filename l
  have hstem : stripped_stem (sanitize_filename l) = sanitize_filename l := by
    unfold stripped_stem
    rw [h1, h2, h3]
    apply strip_by_id
    · intro c hc
      rcases sanitize_structure l with ⟨_, he⟩ | ⟨hne, he⟩
      · rw [he] at hc
        unfold stripped_stem at hc
        exact strip_by_head hc
      · rw [he] at hc
        obtain rfl : '_' = c := Option.some.inj hc
        decide
    · intro c hc
      rcases sanitize_structure l with ⟨_, he⟩ | ⟨hne, he⟩
      · rw [he] at hc
        unfold stripped_stem at hc
        exact strip_by_last hc
      · rw [he] at hc
        have hcons : ('_' :: stripped_stem l).getLast? =
            (stripped_stem l).getLast? := by
          have h := List.getLast?_append_of_ne_nil ['_'] hne
          simpa using h
        rw [hcons] at hc
        unfold stripped_stem at hc
        exact strip_by_last hc
  rw [hstem, apply_badnames_eq]
  have hz : badnames.countP (fun bn =>
      decide (bn_match bn ((sanitize_filename l).map Char.toUpper))) = 0 := by
    rw [List.countP_eq_zero]
    intro bn hbn hd
    exact sanitize_no_reserved l bn hbn (of_decide_eq_true hd)
  rw [hz]
  simp

/-- C8 counterexample: sanitizing is not idempotent — on `". a"` the
dot-stripping step exposes a leading space, so `sanitize(". a") = " a"`
while `sanitize(" a") = "a"`. -/
theorem sanitize_filename_not_idempotent :
    sanitize_filename (sanitize_filename ['.', ' ', 'a']) ≠
      sanitize_filename ['.', ' ', 'a'] := by decide

/-- C8 (amended): a sanitized name contains none of the forbidden characters
`\\ / : * ? " < > |` and no ASCII controls, is never a reserved device name
as stem, and the example `"hello/world: <test>"` sanitizes to
`"hello_world_ _test_"`; sanitizing is idempotent on every input whose
result has no leading or trailing whitespace, but not in general (stripping
dots can expose whitespace, e.g. on `". a"`). -/
theorem sanitize_filename_spec :
    (∀ l : List Char, ∀ c ∈ sanitize_filename l,
      forbidden_char c = false ∧ is_ctrl c = false) ∧
    (∀ l : List Char, ∀ bn ∈ badnames,
      ¬ bn_match bn ((sanitize_filename l).map Char.toUpper)) ∧
    (∀ l : List Char, no_edge_space (sanitize_filename l) →
      sanitize_filename (sanitize_filename l) = sanitize_filename l) ∧
    sanitize_filename "hello/world: <test>".data = "hello_world_ _test_".data :=
  ⟨fun _ _ hc => mem_sanitize hc, fun l => sanitize_no_reserved l,
   fun l => sanitize_idem l, by decide⟩

end FC2
